import Mathlib

/-!
Shallow embedding of the generic LRU cache of `go_example_0e3ffb.go`.

The Go implementation keeps a hash map `cacheMap : map[K]*cacheEntry[K,V]`
and a doubly linked recency list (`head` = most recently used, `tail` =
least recently used) threaded through the same `cacheEntry` nodes, plus an
explicit `size` counter and a fixed `capacity`.

We embed the heap of list nodes as the sequence of keys read from `head`
to `tail` (`order : List K`); node identity coincides with key identity in
every reachable state because keys in the list are distinct.  The map is a
finite function `cacheMap : K → Option V`: the Go map sends a key to a
node pointer and the node stores the value, so dereferencing the pointer
found in the map is reading `cacheMap k`.  Pointer surgery on the doubly
linked list becomes the corresponding surgery on the sequence:
  - `remove entry`   : deleting that node from the sequence (`List.erase`),
  - `addFront entry` : consing the node's key,
  - unlinking `c.tail` in `removeTail`: `List.dropLast`.
Go's `panic` in the constructor is modelled by returning `none`.
-/

/-- State of `LRUCache[K, V]` (`go_example_0e3ffb.go`, lines 28-35):
`capacity`, `size`, the key-to-node map, and the recency list rendered as
the sequence of keys from `head` to `tail`. -/
structure LRUCache (K V : Type) where
  capacity : Nat
  size : Nat
  cacheMap : K → Option V
  order : List K

namespace LRUCache

variable {K V : Type} [DecidableEq K]

/-- `NewLRUCache` (lines 40-48): `panic` on `capacity <= 0` is modelled by
`none`; otherwise the cache starts with an empty map, empty list and
`size = 0`. -/
def NewLRUCache (V : Type) (capacity : Int) : Option (LRUCache K V) :=
  if capacity ≤ 0 then
    none
  else
    some { capacity := capacity.toNat, size := 0,
           cacheMap := fun _ => none, order := [] }

/-- `remove` (lines 108-123): unlink one node from the doubly linked list.
On the key sequence this deletes that node's key. Map and size untouched. -/
def remove (c : LRUCache K V) (k : K) : LRUCache K V :=
  { c with order := c.order.erase k }

/-- `addFront` (lines 126-138): link a node in as the new head (and as the
tail too when the list was empty, which needs no extra step on the
sequence view). Map and size untouched. -/
def addFront (c : LRUCache K V) (k : K) : LRUCache K V :=
  { c with order := k :: c.order }

/-- `moveToFront` (lines 98-104): no-op when the entry is already the
head, otherwise `remove` then `addFront`. -/
def moveToFront (c : LRUCache K V) (k : K) : LRUCache K V :=
  if c.order.head? = some k then
    c
  else
    (c.remove k).addFront k

/-- `removeTail` (lines 142-150): no-op on the empty list; otherwise
capture the tail's key, unlink the tail node, delete the key from the map
and decrement `size`. -/
def removeTail (c : LRUCache K V) : LRUCache K V :=
  match c.order.getLast? with
  | none => c
  | some oldTailKey =>
      { c with order := c.order.dropLast,
               cacheMap := fun x => if x = oldTailKey then none else c.cacheMap x,
               size := c.size - 1 }

/-- `Get` (lines 54-64): on a hit, move the entry to the front and return
its value with `true`; on a miss return the zero value of `V` with
`false` and leave the state alone. -/
def Get [Inhabited V] (c : LRUCache K V) (k : K) : (V × Bool) × LRUCache K V :=
  match c.cacheMap k with
  | some v => ((v, true), c.moveToFront k)
  | none => ((default, false), c)

/-- `Put` (lines 70-92): overwrite-and-move-to-front when the key is
present; otherwise insert a fresh node at the head, record it in the map,
increment `size`, and evict the tail if `size > capacity`. -/
def Put (c : LRUCache K V) (k : K) (v : V) : LRUCache K V :=
  if (c.cacheMap k).isSome then
    ({ c with cacheMap := fun x => if x = k then some v else c.cacheMap x }).moveToFront k
  else
    let afterInsert : LRUCache K V :=
      { c with cacheMap := fun x => if x = k then some v else c.cacheMap x,
               order := k :: c.order,
               size := c.size + 1 }
    if afterInsert.size > afterInsert.capacity then
      afterInsert.removeTail
    else
      afterInsert

/-- States reachable from a successful `NewLRUCache` by `Get`/`Put` calls. -/
inductive Reachable [Inhabited V] : LRUCache K V → Prop
  | new (capacity : Int) (c : LRUCache K V) :
      NewLRUCache V capacity = some c → Reachable c
  | put (c : LRUCache K V) (k : K) (v : V) :
      Reachable c → Reachable (c.Put k v)
  | get (c : LRUCache K V) (k : K) :
      Reachable c → Reachable (c.Get k).2

/-- The data-structure invariant of the cache: the recency list holds
pairwise distinct keys, the map's domain is exactly the set of keys on
the list, `size` counts the list's nodes, and `1 ≤ size's bound = capacity`
with `size ≤ capacity`. -/
def Inv (c : LRUCache K V) : Prop :=
  c.order.Nodup ∧
  (∀ x, (c.cacheMap x).isSome ↔ x ∈ c.order) ∧
  c.size = c.order.length ∧
  1 ≤ c.capacity ∧
  c.size ≤ c.capacity

end LRUCache

namespace LRUCache

variable {K V : Type} [DecidableEq K]

theorem moveToFront_cacheMap (c : LRUCache K V) (k : K) :
    (c.moveToFront k).cacheMap = c.cacheMap := by
  unfold moveToFront remove addFront
  split <;> rfl

theorem moveToFront_size (c : LRUCache K V) (k : K) :
    (c.moveToFront k).size = c.size := by
  unfold moveToFront remove addFront
  split <;> rfl

theorem moveToFront_capacity (c : LRUCache K V) (k : K) :
    (c.moveToFront k).capacity = c.capacity := by
  unfold moveToFront remove addFront
  split <;> rfl

theorem moveToFront_order (c : LRUCache K V) (k : K) :
    (c.moveToFront k).order =
      if c.order.head? = some k then c.order else k :: c.order.erase k := by
  unfold moveToFront remove addFront
  split <;> simp_all

theorem mem_moveToFront_order (c : LRUCache K V) (k : K) (hk : k ∈ c.order) (x : K) :
    x ∈ (c.moveToFront k).order ↔ x ∈ c.order := by
  rw [moveToFront_order]
  split
  · exact Iff.rfl
  · constructor
    · intro hx
      rcases List.mem_cons.mp hx with h | h
      · exact h ▸ hk
      · exact List.mem_of_mem_erase h
    · intro hx
      by_cases hxk : x = k
      · exact hxk ▸ List.mem_cons_self k _
      · exact List.mem_cons_of_mem k (List.mem_erase_of_ne hxk |>.mpr hx)

theorem nodup_moveToFront_order (c : LRUCache K V) (k : K) (hn : c.order.Nodup) :
    (c.moveToFront k).order.Nodup := by
  rw [moveToFront_order]
  split
  · exact hn
  · exact List.Nodup.cons (fun h => ((hn.mem_erase_iff).mp h).1 rfl) (hn.erase k)

theorem length_moveToFront_order (c : LRUCache K V) (k : K) (hk : k ∈ c.order) :
    (c.moveToFront k).order.length = c.order.length := by
  rw [moveToFront_order]
  split
  · rfl
  · simp [List.length_erase_add_one hk]

theorem Inv_moveToFront (c : LRUCache K V) (k : K) (h : c.Inv) (hk : k ∈ c.order) :
    (c.moveToFront k).Inv := by
  obtain ⟨hn, hmem, hsz, hcap, hle⟩ := h
  refine ⟨nodup_moveToFront_order c k hn, ?_, ?_, ?_, ?_⟩
  · intro x
    rw [moveToFront_cacheMap, mem_moveToFront_order c k hk]
    exact hmem x
  · rw [moveToFront_size, length_moveToFront_order c k hk]
    exact hsz
  · rw [moveToFront_capacity]; exact hcap
  · rw [moveToFront_size, moveToFront_capacity]; exact hle

theorem getLast_not_mem_dropLast {l : List K} (h : l ≠ []) (hn : l.Nodup) :
    l.getLast h ∉ l.dropLast := by
  have hn2 : (l.dropLast ++ [l.getLast h]).Nodup := by
    rw [List.dropLast_append_getLast h]; exact hn
  intro hmem
  exact List.disjoint_of_nodup_append hn2 hmem (List.mem_singleton_self _)

theorem mem_dropLast_iff {l : List K} (h : l ≠ []) (hn : l.Nodup) (x : K) :
    x ∈ l.dropLast ↔ x ∈ l ∧ x ≠ l.getLast h := by
  constructor
  · intro hx
    refine ⟨?_, ?_⟩
    · rw [← List.dropLast_append_getLast h]
      exact List.mem_append_left _ hx
    · intro hxe
      exact getLast_not_mem_dropLast h hn (hxe ▸ hx)
  · rintro ⟨hx, hne⟩
    rw [← List.dropLast_append_getLast h] at hx
    rcases List.mem_append.mp hx with h1 | h1
    · exact h1
    · exact absurd (List.mem_singleton.mp h1) hne

theorem removeTail_of_ne_nil (c : LRUCache K V) (h : c.order ≠ []) :
    c.removeTail =
      { c with order := c.order.dropLast,
               cacheMap := fun x => if x = c.order.getLast h then none else c.cacheMap x,
               size := c.size - 1 } := by
  unfold removeTail
  rw [List.getLast?_eq_getLast_of_ne_nil h]

theorem removeTail_of_nil (c : LRUCache K V) (h : c.order = []) :
    c.removeTail = c := by
  unfold removeTail
  rw [h]
  rfl

theorem Inv_new (capacity : Int) (c : LRUCache K V)
    (h : NewLRUCache V capacity = some c) : c.Inv := by
  unfold NewLRUCache at h
  split at h
  · exact absurd h (by simp)
  · rename_i hcap
    obtain rfl := Option.some.inj h
    refine ⟨List.nodup_nil, by simp, rfl, ?_, by simp⟩
    simp only
    omega

theorem Inv_get [Inhabited V] (c : LRUCache K V) (k : K) (h : c.Inv) :
    ((c.Get k).2).Inv := by
  unfold Get
  cases hm : c.cacheMap k with
  | none => exact h
  | some v =>
      have hk : k ∈ c.order := (h.2.1 k).mp (by rw [hm]; rfl)
      exact Inv_moveToFront c k h hk

/-- The intermediate state of `Put`'s absent branch right after lines
82-85: new node at the head, key in the map, size incremented. -/
def afterInsert (c : LRUCache K V) (k : K) (v : V) : LRUCache K V :=
  { c with cacheMap := fun x => if x = k then some v else c.cacheMap x,
           order := k :: c.order,
           size := c.size + 1 }

theorem Put_found (c : LRUCache K V) (k : K) (v : V) (hf : (c.cacheMap k).isSome) :
    c.Put k v =
      ({ c with cacheMap := fun x => if x = k then some v else c.cacheMap x }).moveToFront k := by
  unfold Put
  rw [if_pos hf]

theorem Put_absent (c : LRUCache K V) (k : K) (v : V) (hf : c.cacheMap k = none) :
    c.Put k v =
      if c.size + 1 > c.capacity then (c.afterInsert k v).removeTail
      else c.afterInsert k v := by
  unfold Put afterInsert
  rw [if_neg (by rw [hf]; simp)]

theorem Inv_afterInsert (c : LRUCache K V) (k : K) (v : V)
    (hn : c.order.Nodup) (hmem : ∀ x, (c.cacheMap x).isSome ↔ x ∈ c.order)
    (hsz : c.size = c.order.length) (hf : c.cacheMap k = none) :
    (c.afterInsert k v).order.Nodup ∧
    (∀ x, ((c.afterInsert k v).cacheMap x).isSome ↔ x ∈ (c.afterInsert k v).order) ∧
    (c.afterInsert k v).size = (c.afterInsert k v).order.length := by
  have hkn : k ∉ c.order := fun hk => by
    have := (hmem k).mpr hk
    rw [hf] at this
    exact absurd this (by simp)
  refine ⟨List.Nodup.cons hkn hn, ?_, by simp [afterInsert, hsz]⟩
  intro x
  by_cases hx : x = k
  · subst hx
    simp [afterInsert]
  · simp only [afterInsert, if_neg hx, List.mem_cons]
    rw [hmem x]
    exact ⟨fun h => Or.inr h, fun h => h.resolve_left hx⟩

theorem Inv_put (c : LRUCache K V) (k : K) (v : V) (h : c.Inv) : (c.Put k v).Inv := by
  obtain ⟨hn, hmem, hsz, hcap, hle⟩ := h
  by_cases hfound : (c.cacheMap k).isSome
  · rw [Put_found c k v hfound]
    have hk : k ∈ c.order := (hmem k).mp hfound
    refine Inv_moveToFront _ k ⟨hn, ?_, hsz, hcap, hle⟩ hk
    intro x
    by_cases hx : x = k
    · subst hx
      simpa using hk
    · simpa [if_neg hx] using hmem x
  · have hf : c.cacheMap k = none := Option.not_isSome_iff_eq_none.mp hfound
    rw [Put_absent c k v hf]
    obtain ⟨hn1, hmem1, hsz1⟩ := Inv_afterInsert c k v hn hmem hsz hf
    split
    · rename_i hover
      have hne : (c.afterInsert k v).order ≠ [] := by simp [afterInsert]
      rw [removeTail_of_ne_nil _ hne]
      set tk := (c.afterInsert k v).order.getLast hne with htk
      refine ⟨hn1.sublist (List.dropLast_sublist _), ?_, ?_, hcap, ?_⟩
      · intro x
        by_cases hx : x = tk
        · subst hx
          simp only [if_pos rfl]
          constructor
          · intro hc
            exact absurd hc (by simp)
          · intro hc
            exact absurd hc (getLast_not_mem_dropLast hne hn1)
        · simp only [if_neg hx]
          rw [hmem1 x, mem_dropLast_iff hne hn1]
          exact ⟨fun hm => ⟨hm, hx⟩, fun hm => hm.1⟩
      · simp only [afterInsert, List.length_dropLast, List.length_cons] at *
        omega
      · simp only [afterInsert] at *
        omega
    · rename_i hfits
      simp only [afterInsert, gt_iff_lt, not_lt] at hfits
      exact ⟨hn1, hmem1, hsz1, hcap, by simpa [afterInsert] using hfits⟩

theorem Inv_reachable [Inhabited V] (c : LRUCache K V) (h : Reachable c) : c.Inv := by
  induction h with
  | new capacity c hnew => exact Inv_new capacity c hnew
  | put c k v _ ih => exact Inv_put c k v ih
  | get c k _ ih => exact Inv_get c k ih

/-- A concrete cache (capacity 2, empty) used to instantiate theorems. -/
def demoEmpty : LRUCache Nat Nat :=
  { capacity := 2, size := 0, cacheMap := fun _ => none, order := [] }

theorem demoEmpty_reachable : Reachable demoEmpty :=
  Reachable.new 2 demoEmpty rfl

/-- A concrete cache of capacity 1, empty. -/
def demoCap1 : LRUCache Nat Nat :=
  { capacity := 1, size := 0, cacheMap := fun _ => none, order := [] }

theorem demoCap1_reachable : Reachable demoCap1 :=
  Reachable.new 1 demoCap1 rfl

/-- C1: for every capacity ≥ 1, after any sequence of Put and Get calls on
a cache built by `NewLRUCache`, the number of live entries (`size`) is at
most the capacity. -/
theorem claim1_capacity_invariant [Inhabited V] (c : LRUCache K V)
    (h : Reachable c) : c.size ≤ c.capacity :=
  (Inv_reachable c h).2.2.2.2

theorem claim1_witness :
    ((demoEmpty.Put 1 10).Put 2 20).size ≤ ((demoEmpty.Put 1 10).Put 2 20).capacity :=
  claim1_capacity_invariant _
    (Reachable.put _ 2 20 (Reachable.put _ 1 10 demoEmpty_reachable))

/-- C3: in every reachable state the key set of the index (`cacheMap`)
equals the key set of the recency list, the list's keys are pairwise
distinct, and `size` is the common cardinality of both. -/
theorem claim3_index_list_consistency [Inhabited V] (c : LRUCache K V)
    (h : Reachable c) :
    (∀ x, (c.cacheMap x).isSome ↔ x ∈ c.order) ∧
    c.order.Nodup ∧ c.size = c.order.length := by
  obtain ⟨hn, hmem, hsz, _, _⟩ := Inv_reachable c h
  exact ⟨hmem, hn, hsz⟩

theorem claim3_witness :
    (∀ x, ((((demoEmpty.Put 1 10).Get 1).2.Put 2 20).cacheMap x).isSome ↔
        x ∈ (((demoEmpty.Put 1 10).Get 1).2.Put 2 20).order) ∧
    (((demoEmpty.Put 1 10).Get 1).2.Put 2 20).order.Nodup ∧
    (((demoEmpty.Put 1 10).Get 1).2.Put 2 20).size =
      (((demoEmpty.Put 1 10).Get 1).2.Put 2 20).order.length :=
  claim3_index_list_consistency _
    (Reachable.put _ 2 20 (Reachable.get _ 1 (Reachable.put _ 1 10 demoEmpty_reachable)))

/-- C4: `Get` on an absent key returns the zero value of `V` with `false`
and leaves the state untouched; on a present key it returns the stored
value with `true` and moves that key to the head, leaving the map, the
size, the capacity and the set of listed keys unchanged — no allocation,
no eviction. -/
theorem claim4_get_contract [Inhabited V] (c : LRUCache K V) (k : K)
    (h : Reachable c) :
    (c.cacheMap k = none → c.Get k = ((default, false), c)) ∧
    (∀ v, c.cacheMap k = some v →
      (c.Get k).1 = (v, true) ∧
      ((c.Get k).2).order.head? = some k ∧
      ((c.Get k).2).cacheMap = c.cacheMap ∧
      ((c.Get k).2).size = c.size ∧
      ((c.Get k).2).capacity = c.capacity ∧
      (∀ x, x ∈ ((c.Get k).2).order ↔ x ∈ c.order)) := by
  constructor
  · intro hm
    unfold Get
    rw [hm]
  · intro v hm
    have hk : k ∈ c.order := ((Inv_reachable c h).2.1 k).mp (by rw [hm]; rfl)
    unfold Get
    rw [hm]
    refine ⟨rfl, ?_, moveToFront_cacheMap c k, moveToFront_size c k,
      moveToFront_capacity c k, mem_moveToFront_order c k hk⟩
    rw [moveToFront_order]
    split
    · assumption
    · rfl

theorem claim4_witness :
    ((demoEmpty.Put 1 10).cacheMap 2 = none →
      (demoEmpty.Put 1 10).Get 2 = ((default, false), demoEmpty.Put 1 10)) ∧
    (∀ v, (demoEmpty.Put 1 10).cacheMap 2 = some v →
      ((demoEmpty.Put 1 10).Get 2).1 = (v, true) ∧
      (((demoEmpty.Put 1 10).Get 2).2).order.head? = some 2 ∧
      (((demoEmpty.Put 1 10).Get 2).2).cacheMap = (demoEmpty.Put 1 10).cacheMap ∧
      (((demoEmpty.Put 1 10).Get 2).2).size = (demoEmpty.Put 1 10).size ∧
      (((demoEmpty.Put 1 10).Get 2).2).capacity = (demoEmpty.Put 1 10).capacity ∧
      (∀ x, x ∈ (((demoEmpty.Put 1 10).Get 2).2).order ↔
        x ∈ (demoEmpty.Put 1 10).order)) :=
  claim4_get_contract _ 2 (Reachable.put _ 1 10 demoEmpty_reachable)

/-- C6: constructing with capacity ≤ 0 fails fatally (no cache value is
produced); with positive capacity the new cache has that capacity, an
empty index, an empty recency list and size 0. -/
theorem claim6_new_contract (capacity : Int) :
    (capacity ≤ 0 → NewLRUCache (K := K) V capacity = none) ∧
    (0 < capacity →
      NewLRUCache (K := K) V capacity =
        some { capacity := capacity.toNat, size := 0,
               cacheMap := fun _ => none, order := [] }) := by
  constructor
  · intro hle
    unfold NewLRUCache
    rw [if_pos hle]
  · intro hpos
    unfold NewLRUCache
    rw [if_neg (by omega)]

theorem claim6_witness :
    NewLRUCache (K := Nat) Nat (-3) = none ∧
    NewLRUCache (K := Nat) Nat 2 =
      some { capacity := 2, size := 0, cacheMap := fun _ => none, order := [] } :=
  ⟨(claim6_new_contract (-3)).1 (by decide), (claim6_new_contract 2).2 (by decide)⟩

/-- C7: `Get` on the key currently at the head of the recency list leaves
the whole state unchanged, hence repeated head accesses change nothing. -/
theorem claim7_get_head_noop [Inhabited V] (c : LRUCache K V) (k : K)
    (hh : c.order.head? = some k) (hf : (c.cacheMap k).isSome) :
    (c.Get k).2 = c ∧ ((c.Get k).2.Get k).2 = c := by
  obtain ⟨v, hv⟩ := Option.isSome_iff_exists.mp hf
  have h1 : (c.Get k).2 = c := by
    unfold Get
    rw [hv]
    show c.moveToFront k = c
    unfold moveToFront
    rw [if_pos hh]
  exact ⟨h1, by rw [h1, h1]⟩

theorem claim7_witness :
    (((demoEmpty.Put 5 7).Get 5).2 = demoEmpty.Put 5 7) ∧
    ((((demoEmpty.Put 5 7).Get 5).2.Get 5).2 = demoEmpty.Put 5 7) :=
  claim7_get_head_noop (demoEmpty.Put 5 7) 5 rfl rfl

/-- C5: `Put` on a present key overwrites the value in place and moves the
key to the head; size and capacity are unchanged, no entry is evicted, and
every other key keeps its value and its membership. -/
theorem claim5_put_update_in_place [Inhabited V] (c : LRUCache K V) (k : K) (v : V)
    (h : Reachable c) (hf : (c.cacheMap k).isSome) :
    (c.Put k v).cacheMap k = some v ∧
    (c.Put k v).order.head? = some k ∧
    (c.Put k v).size = c.size ∧
    (c.Put k v).capacity = c.capacity ∧
    (∀ x, x ≠ k → (c.Put k v).cacheMap x = c.cacheMap x) ∧
    (∀ x, x ∈ (c.Put k v).order ↔ x ∈ c.order) := by
  have hk : k ∈ c.order := ((Inv_reachable c h).2.1 k).mp hf
  rw [Put_found c k v hf]
  refine ⟨?_, ?_, ?_, ?_, ?_, ?_⟩
  · rw [moveToFront_cacheMap]
    simp
  · rw [moveToFront_order]
    split
    · assumption
    · rfl
  · rw [moveToFront_size]
  · rw [moveToFront_capacity]
  · intro x hx
    rw [moveToFront_cacheMap]
    simp [if_neg hx]
  · intro x
    exact mem_moveToFront_order
      { c with cacheMap := fun x => if x = k then some v else c.cacheMap x } k hk x

theorem claim5_witness :
    ((demoEmpty.Put 5 7).Put 5 9).cacheMap 5 = some 9 ∧
    ((demoEmpty.Put 5 7).Put 5 9).order.head? = some 5 ∧
    ((demoEmpty.Put 5 7).Put 5 9).size = (demoEmpty.Put 5 7).size ∧
    ((demoEmpty.Put 5 7).Put 5 9).capacity = (demoEmpty.Put 5 7).capacity ∧
    (∀ x, x ≠ 5 → ((demoEmpty.Put 5 7).Put 5 9).cacheMap x =
      (demoEmpty.Put 5 7).cacheMap x) ∧
    (∀ x, x ∈ ((demoEmpty.Put 5 7).Put 5 9).order ↔ x ∈ (demoEmpty.Put 5 7).order) :=
  claim5_put_update_in_place (demoEmpty.Put 5 7) 5 9
    (Reachable.put _ 5 7 demoEmpty_reachable) rfl

/-- C9: in every reachable state, immediately after `Put k v` the key `k`
maps to `v` and `Get k` returns `(v, true)`: the entry a `Put` just wrote
is never the entry that `Put` evicts, even at capacity 1. -/
theorem claim9_put_never_evicts_new [Inhabited V] (c : LRUCache K V) (k : K) (v : V)
    (h : Reachable c) :
    (c.Put k v).cacheMap k = some v ∧ ((c.Put k v).Get k).1 = (v, true) := by
  obtain ⟨hn, hmem, hsz, hcap, hle⟩ := Inv_reachable c h
  have hmap : (c.Put k v).cacheMap k = some v := by
    by_cases hfound : (c.cacheMap k).isSome
    · rw [Put_found c k v hfound, moveToFront_cacheMap]
      simp
    · have hf : c.cacheMap k = none := Option.not_isSome_iff_eq_none.mp hfound
      rw [Put_absent c k v hf]
      split
      · rename_i hover
        have hne : (c.afterInsert k v).order ≠ [] := by simp [afterInsert]
        rw [removeTail_of_ne_nil _ hne]
        have hords : c.order ≠ [] := by
          intro h0
          have hlen : c.size = 0 := by rw [hsz, h0]; rfl
          omega
        have htk : (c.afterInsert k v).order.getLast hne = c.order.getLast hords := by
          show (k :: c.order).getLast _ = _
          exact List.getLast_cons hords
        have hkne : k ≠ (c.afterInsert k v).order.getLast hne := by
          rw [htk]
          intro he
          have hkm : k ∈ c.order := he ▸ List.getLast_mem hords
          have := (hmem k).mpr hkm
          rw [hf] at this
          exact absurd this (by simp)
        show (if k = (c.afterInsert k v).order.getLast hne then none
              else (c.afterInsert k v).cacheMap k) = some v
        rw [if_neg hkne]
        simp [afterInsert]
      · simp [afterInsert]
  refine ⟨hmap, ?_⟩
  unfold Get
  rw [hmap]

theorem claim9_witness :
    ((demoCap1.Put 1 10).Put 2 20).cacheMap 2 = some 20 ∧
    (((demoCap1.Put 1 10).Put 2 20).Get 2).1 = (20, true) :=
  claim9_put_never_evicts_new (demoCap1.Put 1 10) 2 20
    (Reachable.put _ 1 10 demoCap1_reachable)

/-- C8: whenever `Put` reaches its eviction call (absent key and the
incremented size exceeds the capacity), the recency list at that moment
is non-empty — the defensive empty-list branch of `removeTail` is not
taken — and `removeTail` removes exactly the tail entry from both the
list and the index and decrements the size; moreover size > capacity ≥ 1
holds at the call. -/
theorem claim8_evict_branch_live [Inhabited V] (c : LRUCache K V) (k : K) (v : V)
    (h : Reachable c) (habs : c.cacheMap k = none)
    (hover : c.size + 1 > c.capacity) :
    c.Put k v = (c.afterInsert k v).removeTail ∧
    (c.afterInsert k v).size > (c.afterInsert k v).capacity ∧
    1 ≤ (c.afterInsert k v).capacity ∧
    ∃ hne : (c.afterInsert k v).order ≠ [],
      ((c.afterInsert k v).removeTail).order = (c.afterInsert k v).order.dropLast ∧
      ((c.afterInsert k v).removeTail).cacheMap
        ((c.afterInsert k v).order.getLast hne) = none ∧
      ((c.afterInsert k v).removeTail).size = (c.afterInsert k v).size - 1 := by
  obtain ⟨hn, hmem, hsz, hcap, hle⟩ := Inv_reachable c h
  have hover2 : (c.afterInsert k v).size > (c.afterInsert k v).capacity := hover
  have hne : (c.afterInsert k v).order ≠ [] := by simp [afterInsert]
  refine ⟨by rw [Put_absent c k v habs, if_pos hover], hover2, hcap, hne, ?_, ?_, ?_⟩
  · rw [removeTail_of_ne_nil _ hne]
  · rw [removeTail_of_ne_nil _ hne]
    show (if (c.afterInsert k v).order.getLast hne = (c.afterInsert k v).order.getLast hne
          then none else (c.afterInsert k v).cacheMap _) = none
    rw [if_pos rfl]
  · rw [removeTail_of_ne_nil _ hne]

theorem claim8_witness :
    (demoCap1.Put 1 10).Put 2 20 = ((demoCap1.Put 1 10).afterInsert 2 20).removeTail ∧
    ((demoCap1.Put 1 10).afterInsert 2 20).size >
      ((demoCap1.Put 1 10).afterInsert 2 20).capacity ∧
    1 ≤ ((demoCap1.Put 1 10).afterInsert 2 20).capacity ∧
    ∃ hne : ((demoCap1.Put 1 10).afterInsert 2 20).order ≠ [],
      (((demoCap1.Put 1 10).afterInsert 2 20).removeTail).order =
        ((demoCap1.Put 1 10).afterInsert 2 20).order.dropLast ∧
      (((demoCap1.Put 1 10).afterInsert 2 20).removeTail).cacheMap
        (((demoCap1.Put 1 10).afterInsert 2 20).order.getLast hne) = none ∧
      (((demoCap1.Put 1 10).afterInsert 2 20).removeTail).size =
        ((demoCap1.Put 1 10).afterInsert 2 20).size - 1 :=
  claim8_evict_branch_live (demoCap1.Put 1 10) 2 20
    (Reachable.put _ 1 10 demoCap1_reachable) rfl (by decide)

/-- C2: `Put` on an absent key inserts a new entry at the head of the
recency list, records it in the index and increments the size; when the
incremented size exceeds the capacity it then evicts exactly one entry,
the current tail (the pre-Put tail, since the new entry sits at the
head), removing it from both list and index and decrementing the size
back; otherwise nothing is evicted. -/
theorem claim2_put_absent_contract [Inhabited V] (c : LRUCache K V) (k : K) (v : V)
    (h : Reachable c) (habs : c.cacheMap k = none) :
    (c.Put k v).order.head? = some k ∧
    (c.Put k v).cacheMap k = some v ∧
    (c.size + 1 ≤ c.capacity →
      (c.Put k v).order = k :: c.order ∧
      (c.Put k v).size = c.size + 1 ∧
      (∀ x, x ≠ k → (c.Put k v).cacheMap x = c.cacheMap x)) ∧
    (c.size + 1 > c.capacity →
      ∃ hords : c.order ≠ [],
        (c.Put k v).order = k :: c.order.dropLast ∧
        (c.Put k v).size = c.size ∧
        (c.Put k v).cacheMap (c.order.getLast hords) = none ∧
        (∀ x, x ≠ k → x ≠ c.order.getLast hords →
          (c.Put k v).cacheMap x = c.cacheMap x)) := by
  obtain ⟨hn, hmem, hsz, hcap, hle⟩ := Inv_reachable c h
  rw [Put_absent c k v habs]
  by_cases hover : c.size + 1 > c.capacity
  · rw [if_pos hover]
    have hne : (c.afterInsert k v).order ≠ [] := by simp [afterInsert]
    have hords : c.order ≠ [] := by
      intro h0
      have hlen : c.size = 0 := by rw [hsz, h0]; rfl
      omega
    have hdrop : (c.afterInsert k v).order.dropLast = k :: c.order.dropLast := by
      show (k :: c.order).dropLast = _
      exact List.dropLast_cons_of_ne_nil hords
    have htk : (c.afterInsert k v).order.getLast hne = c.order.getLast hords := by
      show (k :: c.order).getLast _ = _
      exact List.getLast_cons hords
    have hkmem : k ∉ c.order := fun hkm => by
      have := (hmem k).mpr hkm
      rw [habs] at this
      exact absurd this (by simp)
    have hkne : k ≠ c.order.getLast hords :=
      fun he => hkmem (he ▸ List.getLast_mem hords)
    rw [removeTail_of_ne_nil _ hne]
    refine ⟨?_, ?_, ?_, ?_⟩
    · show ((c.afterInsert k v).order.dropLast).head? = some k
      rw [hdrop]
      rfl
    · show (if k = (c.afterInsert k v).order.getLast hne then none
            else (c.afterInsert k v).cacheMap k) = some v
      rw [htk, if_neg hkne]
      simp [afterInsert]
    · intro hfits
      omega
    · intro _
      refine ⟨hords, ?_, ?_, ?_, ?_⟩
      · exact hdrop
      · rfl
      · show (if c.order.getLast hords = (c.afterInsert k v).order.getLast hne then none
              else (c.afterInsert k v).cacheMap (c.order.getLast hords)) = none
        rw [htk, if_pos rfl]
      · intro x hx1 hx2
        show (if x = (c.afterInsert k v).order.getLast hne then none
              else (c.afterInsert k v).cacheMap x) = c.cacheMap x
        rw [htk, if_neg hx2]
        simp [afterInsert, if_neg hx1]
  · rw [if_neg hover]
    refine ⟨rfl, by simp [afterInsert], ?_, ?_⟩
    · intro _
      refine ⟨rfl, rfl, ?_⟩
      intro x hx
      simp [afterInsert, if_neg hx]
    · intro hov
      omega

theorem claim2_witness :
    ((demoEmpty.Put 1 10).Put 2 20).order.head? = some 2 ∧
    ((demoEmpty.Put 1 10).Put 2 20).cacheMap 2 = some 20 ∧
    ((demoEmpty.Put 1 10).size + 1 ≤ (demoEmpty.Put 1 10).capacity →
      ((demoEmpty.Put 1 10).Put 2 20).order = 2 :: (demoEmpty.Put 1 10).order ∧
      ((demoEmpty.Put 1 10).Put 2 20).size = (demoEmpty.Put 1 10).size + 1 ∧
      (∀ x, x ≠ 2 → ((demoEmpty.Put 1 10).Put 2 20).cacheMap x =
        (demoEmpty.Put 1 10).cacheMap x)) ∧
    ((demoEmpty.Put 1 10).size + 1 > (demoEmpty.Put 1 10).capacity →
      ∃ hords : (demoEmpty.Put 1 10).order ≠ [],
        ((demoEmpty.Put 1 10).Put 2 20).order =
          2 :: (demoEmpty.Put 1 10).order.dropLast ∧
        ((demoEmpty.Put 1 10).Put 2 20).size = (demoEmpty.Put 1 10).size ∧
        ((demoEmpty.Put 1 10).Put 2 20).cacheMap
          ((demoEmpty.Put 1 10).order.getLast hords) = none ∧
        (∀ x, x ≠ 2 → x ≠ (demoEmpty.Put 1 10).order.getLast hords →
          ((demoEmpty.Put 1 10).Put 2 20).cacheMap x =
            (demoEmpty.Put 1 10).cacheMap x)) :=
  claim2_put_absent_contract (demoEmpty.Put 1 10) 2 20
    (Reachable.put _ 1 10 demoEmpty_reachable) rfl
